import Mathlib

/-!
Verification development for the Minesweeper knowledge-based inference engine
in `src/Project1/minesweeper/minesweeper.py`.

Modelling conventions (shallow embedding):
* A board cell is a pair of integer coordinates.  Python integers are
  arbitrary-precision, so coordinates and counts are `ℤ`.  We use the
  lexicographic product `Lex (ℤ × ℤ)` purely to have a `LinearOrder`
  available for picking canonical representatives of Python's
  unspecified set-iteration order; the order plays no semantic role.
* Python `set` objects become `Finset Cell`; Python lists become `List`.
* `Sentence.mines` and `Sentence.safes` in the source are CLASS attributes
  (shared by every `Sentence` instance in the process, across all
  `MinesweeperAI` instances).  They are modelled by the explicit record
  `SentenceStatics` threaded through every operation that can touch them.
* `list.remove(x)` removes the first element `== x`; with value equality
  this is `List.erase`.  Python's `for` over a list that is mutated in the
  loop body advances an internal index; both loops of `add_knowledge`
  are embedded index-by-index with exactly that semantics.
* The derivation loop of `add_knowledge` can genuinely diverge on some
  states (it keeps appending sentences while iterating), so it is embedded
  with explicit fuel and returns `none` when the fuel runs out.
-/

abbrev Cell : Type := Lex (ℤ × ℤ)

instance : DecidableEq Cell := inferInstanceAs (DecidableEq (ℤ × ℤ))

/-- Shorthand for building a concrete cell. -/
def pt (a b : ℤ) : Cell := toLex (a, b)

/-- Source `class Sentence`: a set of board cells and a count of how many of them
are mines (`__init__`, lines 97-99). -/
structure Sentence where
  cells : Finset Cell
  count : ℤ
deriving DecidableEq

/-- The class attributes `Sentence.mines` and `Sentence.safes`
(lines 94-95): process-wide state shared by all sentences of all
engine instances. -/
structure SentenceStatics where
  mines : Finset Cell
  safes : Finset Cell
deriving DecidableEq

/-- Source `Sentence.known_mines` (line 111): `Sentence.mines & self.cells`. -/
def sentence_known_mines (cs : SentenceStatics) (s : Sentence) : Finset Cell :=
  cs.mines ∩ s.cells

/-- Source `Sentence.known_safes` (line 117): `Sentence.safes & self.cells`. -/
def sentence_known_safes (cs : SentenceStatics) (s : Sentence) : Finset Cell :=
  cs.safes ∩ s.cells

/-- Source `Sentence.mark_mine` (lines 119-128): if the cell is in the sentence,
discard it, decrement the count, and add it to the class-level mine set. -/
def sentence_mark_mine (cs : SentenceStatics) (s : Sentence) (c : Cell) :
    SentenceStatics × Sentence :=
  if c ∈ s.cells then
    ({ cs with mines := insert c cs.mines },
     { cells := s.cells.erase c, count := s.count - 1 })
  else (cs, s)

/-- Source `Sentence.mark_safe` (lines 130-138): if the cell is in the sentence,
discard it (count unchanged) and add it to the class-level safe set. -/
def sentence_mark_safe (cs : SentenceStatics) (s : Sentence) (c : Cell) :
    SentenceStatics × Sentence :=
  if c ∈ s.cells then
    ({ cs with safes := insert c cs.safes },
     { cells := s.cells.erase c, count := s.count })
  else (cs, s)

/-- The state of one `MinesweeperAI` instance (lines 146-160). -/
structure Engine where
  height : ℤ
  width : ℤ
  moves_made : Finset Cell
  mines : Finset Cell
  safes : Finset Cell
  knowledge : List Sentence
deriving DecidableEq

/-- Source `MinesweeperAI.__init__` (lines 146-160). -/
def initialEngine (h w : ℤ) : Engine :=
  { height := h, width := w, moves_made := ∅, mines := ∅, safes := ∅,
    knowledge := [] }

/-- The state of the class attributes in a fresh Python process. -/
def initialStatics : SentenceStatics := { mines := ∅, safes := ∅ }

/-- The loop `for sentence in self.knowledge: sentence.mark_safe(cell)`
of `MinesweeperAI.mark_safe` (lines 178-179), threading the class state. -/
def markSafeList (cs : SentenceStatics) (c : Cell) :
    List Sentence → SentenceStatics × List Sentence
  | [] => (cs, [])
  | s :: rest =>
    let p1 := sentence_mark_safe cs s c
    let p2 := markSafeList p1.1 c rest
    (p2.1, p1.2 :: p2.2)

/-- Source `MinesweeperAI.mark_safe` (lines 171-179): add the cell to the
engine-level safe set and mark it safe in every sentence.  (The `print`
on line 177 is I/O and has no effect on the state.) -/
def engine_mark_safe (cs : SentenceStatics) (ai : Engine) (c : Cell) :
    SentenceStatics × Engine :=
  let p := markSafeList cs c ai.knowledge
  (p.1, { ai with safes := insert c ai.safes, knowledge := p.2 })

/-- The nine offsets scanned by `for i in range(-1, 2): for j in range(-1, 2)`
(lines 208-209). -/
def nbrOffsets : List (ℤ × ℤ) :=
  [(-1, -1), (-1, 0), (-1, 1), (0, -1), (0, 0), (0, 1), (1, -1), (1, 0), (1, 1)]

/-- The neighbour-set computation of `add_knowledge` (lines 205-216):
candidate cells around `cell` that are not in `moves_made` and lie on the
grid.  (`cell` itself was added to `moves_made` on line 197, so the
`(0, 0)` offset is always skipped.) -/
def neighbour_cells (moves : Finset Cell) (h w : ℤ) (cell : Cell) : Finset Cell :=
  ((nbrOffsets.map fun p => pt ((ofLex cell).1 + p.1) ((ofLex cell).2 + p.2)).filter
    fun c => c ∉ moves ∧ 0 ≤ (ofLex c).1 ∧ (ofLex c).1 < h ∧
      0 ≤ (ofLex c).2 ∧ (ofLex c).2 < w).toFinset

/-- The sentence built from a new observation and appended to the
knowledge base on line 220 (unconditionally: the source has no duplicate
check at this point). -/
def observeSentence (moves : Finset Cell) (h w : ℤ) (cell : Cell) (count : ℤ) :
    Sentence :=
  { cells := neighbour_cells moves h w cell, count := count }

/-- The subset-derivation loop of `add_knowledge` (lines 225-239).
Python iterates both `for` loops over the live list while the body appends
to it, so both iterators see appended sentences; `i` and `j` are the
positions of the two iterators.  Comparisons use `Sentence.__eq__`
(value equality) and `>` on sets is strict superset.  The loop can diverge
(appending forever) on states whose knowledge base holds a sentence with
empty cells and nonzero count, so each step burns one unit of fuel. -/
def deriveLoop (fuel : ℕ) (k : List Sentence) (i j : ℕ) : Option (List Sentence) :=
  match fuel with
  | 0 => none
  | f + 1 =>
    if hi : i < k.length then
      if hj : j < k.length then
        let s1 := k.get ⟨i, hi⟩
        let s2 := k.get ⟨j, hj⟩
        if s1 = s2 then deriveLoop f k i (j + 1)
        else if s2.cells ⊂ s1.cells then
          let snew : Sentence :=
            { cells := s1.cells \ s2.cells, count := s1.count - s2.count }
          if snew ∈ k then deriveLoop f k i (j + 1)
          else deriveLoop f (k ++ [snew]) i (j + 1)
        else deriveLoop f k i (j + 1)
      else deriveLoop f k (i + 1) 0
    else some k

/-- Net effect on the class-level mine set of running
`for each_cell in helper: self.mark_mine(each_cell)` over the sentence
list `k`: a helper cell reaches `Sentence.mines` exactly when some
sentence still contains it (line 128 fires inside `Sentence.mark_mine`).
Python iterates the `helper` set in unspecified order; the per-cell
effects commute (each cell is erased from each sentence at most once and
set insertion is idempotent), so the loop is embedded by its
order-independent net effect. -/
def batchTouched (k : List Sentence) (helper : Finset Cell) : Finset Cell :=
  k.foldl (fun acc t => acc ∪ (t.cells ∩ helper)) ∅

/-- Net effect on the sentence list of
`for each_cell in helper: self.mark_mine(each_cell)` (lines 257-258):
each sentence loses the helper cells it contains and its count drops by
one per cell lost (line 126-127), independent of iteration order. -/
def batchMarkMine (k : List Sentence) (helper : Finset Cell) : List Sentence :=
  k.map fun t =>
    { cells := t.cells \ helper, count := t.count - ((t.cells ∩ helper).card : ℤ) }

/-- Net effect on the sentence list of
`for each_cell in helper: self.mark_safe(each_cell)` (lines 270-271):
each sentence loses the helper cells it contains, counts unchanged
(lines 136-137), independent of iteration order. -/
def batchMarkSafe (k : List Sentence) (helper : Finset Cell) : List Sentence :=
  k.map fun t => { cells := t.cells \ helper, count := t.count }

/-- The extraction loop of `add_knowledge` (lines 244-271).  Python's
`for sentence in self.knowledge` advances an internal index over the live
list while the body calls `self.knowledge.remove(sentence)` (first
element equal by value, i.e. `List.erase`), so an element sliding into
the removed slot is skipped.  The `helper` set is created ONCE before the
loop (line 244) and keeps accumulating across iterations; each resolved
sentence batch marks ALL cells ever collected, which lets mine cells leak
into a later mark-safe batch and vice versa.  `self.mark_mine(c)` adds
`c` to `self.mines` unconditionally and then updates every sentence;
`self.mark_safe` symmetrically (with the class-level sets updated only
for cells still present in some sentence, see `batchTouched`).
Termination is by the fuel counter only to keep the definition uniform
with `deriveLoop`; one unit is burnt per visited index. -/
def extractLoop (fuel : ℕ) (cs : SentenceStatics) (mines safes : Finset Cell)
    (k : List Sentence) (helper : Finset Cell) (idx : ℕ) :
    Option (SentenceStatics × Finset Cell × Finset Cell × List Sentence) :=
  match fuel with
  | 0 => none
  | f + 1 =>
    if h : idx < k.length then
      let s := k.get ⟨idx, h⟩
      if (s.cells.card : ℤ) = s.count then
        let helper2 := helper ∪ s.cells
        let k1 := k.erase s
        let cs2 := { cs with mines := cs.mines ∪ batchTouched k1 helper2 }
        extractLoop f cs2 (mines ∪ helper2) safes (batchMarkMine k1 helper2)
          helper2 (idx + 1)
      else if s.count = 0 then
        let helper2 := helper ∪ s.cells
        let k1 := k.erase s
        let cs2 := { cs with safes := cs.safes ∪ batchTouched k1 helper2 }
        extractLoop f cs2 mines (safes ∪ helper2) (batchMarkSafe k1 helper2)
          helper2 (idx + 1)
      else extractLoop f cs mines safes k helper (idx + 1)
    else some (cs, mines, safes, k)

/-- Source `MinesweeperAI.add_knowledge` (lines 181-271): record the move, mark
the cell safe, append the new sentence built from the unknown in-grid
neighbours, run the subset-derivation loop, then the extraction loop.
`none` means the fuel ran out. -/
def add_knowledge (fuel : ℕ) (cs : SentenceStatics) (ai : Engine)
    (cell : Cell) (count : ℤ) : Option (SentenceStatics × Engine) :=
  let ai1 := { ai with moves_made := insert cell ai.moves_made }
  let p := engine_mark_safe cs ai1 cell
  let k0 := p.2.knowledge ++
    [observeSentence p.2.moves_made p.2.height p.2.width cell count]
  match deriveLoop fuel k0 0 0 with
  | none => none
  | some k1 =>
    match extractLoop fuel p.1 p.2.mines p.2.safes k1 ∅ 0 with
    | none => none
    | some (cs2, m2, s2, k2) =>
      some (cs2, { p.2 with mines := m2, safes := s2, knowledge := k2 })

/-- Source `MinesweeperAI.make_safe_move` (lines 273-287): return a cell from
`self.safes` that is not in `self.moves_made`, or `None`.  The source
iterates the Python set `self.safes` in unspecified order; the minimum
eligible cell is returned here as a canonical representative of that
arbitrary choice.  The body performs no assignment to any engine field
(the `print` on line 282 is I/O), so the engine component of the result
is the input engine. -/
def make_safe_move (ai : Engine) : Option Cell × Engine :=
  (if h : (ai.safes \ ai.moves_made).Nonempty
    then some ((ai.safes \ ai.moves_made).min' h) else none, ai)

/-- Source `MinesweeperAI.make_random_move` (lines 289-302): `while 1` draw a
random in-range cell and return it unless it is a known mine or an
already-made move.  The random draws are modelled by an explicit stream
of candidate cells (`stream k` is the k-th draw; `randint` keeps every
draw inside the grid, which becomes a hypothesis on the stream), and the
unbounded loop by fuel. -/
def make_random_move (ai : Engine) (stream : ℕ → Cell) :
    ℕ → ℕ → Option Cell
  | 0, _ => none
  | f + 1, k =>
    let c := stream k
    if c ∉ ai.mines ∧ c ∉ ai.moves_made then some c
    else make_random_move ai stream f (k + 1)

/-- Replay a list of `observe` calls against an engine, threading the
shared class-level state. -/
def runObs (fuel : ℕ) (p : SentenceStatics × Engine) :
    List (Cell × ℤ) → Option (SentenceStatics × Engine)
  | [] => some p
  | (c, n) :: rest =>
    match add_knowledge fuel p.1 p.2 c n with
    | none => none
    | some p2 => runObs fuel p2 rest

/-- A cell lies on the `h × w` grid. -/
def inGrid (h w : ℤ) (c : Cell) : Prop :=
  0 ≤ (ofLex c).1 ∧ (ofLex c).1 < h ∧ 0 ≤ (ofLex c).2 ∧ (ofLex c).2 < w

instance (h w : ℤ) (c : Cell) : Decidable (inGrid h w c) := by
  unfold inGrid; infer_instance

/-- Source `Minesweeper.nearby_mines` (lines 55-78): the number of mines of the
board `M` within one row and column of `cell`, the cell itself excluded,
clipped to the grid.  Distinct offsets give distinct cells, so the Python
running count equals the cardinality of the corresponding cell set. -/
def nearby_mines (M : Finset Cell) (h w : ℤ) (cell : Cell) : ℤ :=
  (((nbrOffsets.map fun p => pt ((ofLex cell).1 + p.1) ((ofLex cell).2 + p.2)).filter
    fun c => c ≠ cell ∧ 0 ≤ (ofLex c).1 ∧ (ofLex c).1 < h ∧
      0 ≤ (ofLex c).2 ∧ (ofLex c).2 < w ∧ c ∈ M).toFinset.card : ℤ)

/-- A sentence is true of the mine set `M`: exactly `count` of its cells
are mines.  This is the intended reading stated in the source docstring
of `Sentence` (lines 88-92). -/
def TrueFor (M : Finset Cell) (s : Sentence) : Prop :=
  ((s.cells ∩ M).card : ℤ) = s.count

/-- Concrete run for C1: a 3×3 board whose only mine is `(1,1)`; all six
observations are truthful (every observed cell is adjacent to the mine,
so its count is 1).  The check evaluates whether `(1,1)` ends up in both
the engine mine set and the engine safe set. -/
def c1Check : Bool :=
  match runObs 1000 (initialStatics, initialEngine 3 3)
    [(pt 0 0, 1), (pt 2 2, 1), (pt 2 0, 1), (pt 0 2, 1), (pt 0 1, 1), (pt 2 1, 1)] with
  | some p => decide (pt 1 1 ∈ p.2.mines ∧ pt 1 1 ∈ p.2.safes)
  | none => false

/-- Concrete run for the C2 counterexample: a single observation with an
out-of-range count is accepted and stored unchecked. -/
def c2CexCheck : Bool :=
  match runObs 20 (initialStatics, initialEngine 3 3) [(pt 0 0, 5)] with
  | some p => p.2.knowledge.any fun s =>
      decide (¬ (0 ≤ s.count ∧ s.count ≤ (s.cells.card : ℤ)))
  | none => false

/-- Concrete run for the C3 counterexample: three truthful observations
on a 3×3 board with a single mine at `(1,1)`; the check evaluates whether
a resolved or vacuous sentence is still in the knowledge base after the
last call returns. -/
def c3CexCheck : Bool :=
  match runObs 100 (initialStatics, initialEngine 3 3)
    [(pt 0 0, 1), (pt 0 2, 1), (pt 0 1, 1)] with
  | some p => p.2.knowledge.any fun s =>
      decide (s.count = 0 ∨ (s.cells.card : ℤ) = s.count ∨ s.cells = ∅)
  | none => false

/-- Concrete run for the C4 counterexample: observe `(0,0)` twice; the
second call receives a cell already in `moves_made`, yet the engine state
is different after it. -/
def c4CexCheck : Bool :=
  match runObs 20 (initialStatics, initialEngine 3 3) [(pt 0 0, 1)] with
  | some p1 =>
    decide (pt 0 0 ∈ p1.2.moves_made) &&
    (match add_knowledge 20 p1.1 p1.2 (pt 0 0) 1 with
     | some p2 => decide (p2.2 ≠ p1.2)
     | none => false)
  | none => false

/-- Concrete run for the C5 counterexample: observing the same cell twice
appends the same sentence twice, so the knowledge base holds two equal
entries. -/
def c5CexCheck : Bool :=
  match runObs 20 (initialStatics, initialEngine 3 3)
    [(pt 0 0, 2), (pt 0 0, 2)] with
  | some p => decide (¬ p.2.knowledge.Nodup)
  | none => false

/-- Concrete run for C6: one observation `((0,0), 0)` on a fresh 3×3
engine; the check evaluates whether all three grid neighbours of `(0,0)`
are in the engine safe set afterwards. -/
def c6Check : Bool :=
  match runObs 20 (initialStatics, initialEngine 3 3) [(pt 0 0, 0)] with
  | some p => decide (pt 0 1 ∈ p.2.safes ∧ pt 1 0 ∈ p.2.safes ∧ pt 1 1 ∈ p.2.safes)
  | none => false

/-- Concrete run for C9: engine B observes `((0,0),1)`; then a separate
engine A (same Python process, hence same `Sentence` class attributes)
observes `((0,0),1)` and `((2,2),3)`.  The check evaluates whether the
`known_mines()` view of B's stored sentence changed from `∅` to
`{(1,1)}` although no operation was performed on B. -/
def c9Check : Bool :=
  match runObs 20 (initialStatics, initialEngine 3 3) [(pt 0 0, 1)] with
  | some pB =>
    match runObs 100 (pB.1, initialEngine 3 3) [(pt 0 0, 1), (pt 2 2, 3)] with
    | some pA =>
      match pB.2.knowledge with
      | [sB] => decide (sentence_known_mines pB.1 sB = ∅ ∧
          sentence_known_mines pA.1 sB = {pt 1 1})
      | _ => false
    | none => false
  | none => false

/-- Engine state reached by one call `observe((0,0), 1)` on a fresh 3×3
engine; concrete input for several witnesses below. -/
def engineAfterOneObserve : Engine :=
  { height := 3, width := 3, moves_made := {pt 0 0}, mines := ∅,
    safes := {pt 0 0}, knowledge := [Sentence.mk {pt 0 1, pt 1 0, pt 1 1} 1] }

/-- Engine state reached by calling `observe((0,0), 1)` twice on a fresh
3×3 engine: the knowledge base holds the same sentence twice. -/
def engineAfterTwoObserve : Engine :=
  { height := 3, width := 3, moves_made := {pt 0 0}, mines := ∅,
    safes := {pt 0 0},
    knowledge := [Sentence.mk {pt 0 1, pt 1 0, pt 1 1} 1,
      Sentence.mk {pt 0 1, pt 1 0, pt 1 1} 1] }

/-- C10: `make_safe_move` leaves the engine state unchanged: the source
body reads `self.safes` and `self.moves_made` and prints, but assigns to
no engine field, so the engine component of its result is the input
engine whether a cell or none is returned. -/
theorem c10_safe_move_frame (ai : Engine) : (make_safe_move ai).2 = ai := rfl

/-- C8: `Sentence.mark_mine` and `Sentence.mark_safe` are idempotent —
calling either twice with the same cell yields the same constraint state
and the same class-level fact sets as calling it once — and each is a
no-op (on both the sentence and the fact sets) when the cell is not a
member of the sentence's cell set. -/
theorem c8_mark_idempotent (cs : SentenceStatics) (s : Sentence) (c : Cell) :
    sentence_mark_mine (sentence_mark_mine cs s c).1 (sentence_mark_mine cs s c).2 c =
      sentence_mark_mine cs s c ∧
    sentence_mark_safe (sentence_mark_safe cs s c).1 (sentence_mark_safe cs s c).2 c =
      sentence_mark_safe cs s c ∧
    (c ∉ s.cells →
      sentence_mark_mine cs s c = (cs, s) ∧ sentence_mark_safe cs s c = (cs, s)) := by
  by_cases hc : c ∈ s.cells <;>
    simp [sentence_mark_mine, sentence_mark_safe, hc, Finset.not_mem_erase]

theorem add_knowledge_moves_made (fuel : ℕ) (cs : SentenceStatics) (ai : Engine)
    (cell : Cell) (count : ℤ) (cs2 : SentenceStatics) (ai2 : Engine)
    (hrun : add_knowledge fuel cs ai cell count = some (cs2, ai2)) :
    ai2.moves_made = insert cell ai.moves_made := by
  unfold add_knowledge at hrun
  dsimp only at hrun
  split at hrun
  · simp at hrun
  · split at hrun
    · simp at hrun
    · simp only [Option.some.injEq, Prod.mk.injEq] at hrun
      obtain ⟨h1, h2⟩ := hrun
      rw [← h2]
      simp [engine_mark_safe]

/-- C4 (amended): a call `observe(cell, count)` with `cell` already in
`moves_made` is NOT rejected — it runs in full and may change the
knowledge base (see `c4_counterexample`) — but `moves_made` itself is
unchanged, because the only write to it re-inserts the present cell. -/
theorem c4_amended (fuel : ℕ) (cs : SentenceStatics) (ai : Engine)
    (cell : Cell) (count : ℤ) (cs2 : SentenceStatics) (ai2 : Engine)
    (hmem : cell ∈ ai.moves_made)
    (hrun : add_knowledge fuel cs ai cell count = some (cs2, ai2)) :
    ai2.moves_made = ai.moves_made := by
  rw [add_knowledge_moves_made fuel cs ai cell count cs2 ai2 hrun]
  exact Finset.insert_eq_self.mpr hmem

/-- C5 (amended): the constraint built from a new observation is
appended to the knowledge base unconditionally, so when an equal
constraint is already present the knowledge base ends up holding two
equal entries (only derived constraints are subject to a duplicate
check). -/
theorem c5_amended (cs : SentenceStatics) (ai : Engine) (cell : Cell) (count : ℤ)
    (hdup : observeSentence (insert cell ai.moves_made) ai.height ai.width cell count ∈
      (engine_mark_safe cs { ai with moves_made := insert cell ai.moves_made }
        cell).2.knowledge) :
    2 ≤ List.count
      (observeSentence (insert cell ai.moves_made) ai.height ai.width cell count)
      ((engine_mark_safe cs { ai with moves_made := insert cell ai.moves_made }
          cell).2.knowledge ++
        [observeSentence (insert cell ai.moves_made) ai.height ai.width cell count]) := by
  rw [List.count_append]
  have h1 : 0 < List.count
      (observeSentence (insert cell ai.moves_made) ai.height ai.width cell count)
      (engine_mark_safe cs { ai with moves_made := insert cell ai.moves_made }
        cell).2.knowledge := List.count_pos_iff.mpr hdup
  have h2 : List.count
      (observeSentence (insert cell ai.moves_made) ai.height ai.width cell count)
      [observeSentence (insert cell ai.moves_made) ai.height ai.width cell count] = 1 := by
    simp
  omega

theorem make_random_move_finds (ai : Engine) (stream : ℕ → Cell) :
    ∀ (f k n : ℕ), k ≤ n → n < k + f →
    stream n ∉ ai.mines → stream n ∉ ai.moves_made →
    ∃ m c, make_random_move ai stream f k = some c ∧ c = stream m ∧
      c ∉ ai.mines ∧ c ∉ ai.moves_made := by
  intro f
  induction f with
  | zero => intro k n h1 h2 h3 h4; omega
  | succ f ih =>
    intro k n h1 h2 h3 h4
    by_cases hk : stream k ∉ ai.mines ∧ stream k ∉ ai.moves_made
    · exact ⟨k, stream k, by simp [make_random_move, hk], rfl, hk.1, hk.2⟩
    · have hne : n ≠ k := by rintro rfl; exact hk ⟨h3, h4⟩
      have step : make_random_move ai stream (f + 1) k =
          make_random_move ai stream f (k + 1) := by
        simp [make_random_move, hk]
      rw [step]
      exact ih (k + 1) n (by omega) (by omega) h3 h4

/-- C7: whenever some grid cell is neither a known mine nor an already
made move, `make_random_move` returns, and its result is a grid-valid
cell that is neither in `mines` nor in `moves_made`.  The random draws
of `random.randint` are modelled by a stream of candidate cells that
stays in the grid and eventually proposes every grid cell (true with
probability 1 for the uniform sampler). -/
theorem c7_random_move (ai : Engine) (stream : ℕ → Cell)
    (hstream : ∀ n, inGrid ai.height ai.width (stream n))
    (hhit : ∀ c, inGrid ai.height ai.width c → ∃ n, stream n = c)
    (hne : ∃ c, inGrid ai.height ai.width c ∧ c ∉ ai.mines ∧ c ∉ ai.moves_made) :
    ∃ fuel c, make_random_move ai stream fuel 0 = some c ∧
      inGrid ai.height ai.width c ∧ c ∉ ai.mines ∧ c ∉ ai.moves_made := by
  obtain ⟨c0, hc0, hm0, hv0⟩ := hne
  obtain ⟨n0, hn0⟩ := hhit c0 hc0
  obtain ⟨m, c, hsome, hcm, hcmine, hcmove⟩ :=
    make_random_move_finds ai stream (n0 + 1) 0 n0 (by omega) (by omega)
      (by rw [hn0]; exact hm0) (by rw [hn0]; exact hv0)
  exact ⟨n0 + 1, c, hsome, hcm ▸ hstream m, hcmine, hcmove⟩

theorem pt_eq_iff (a b c d : ℤ) : pt a b = pt c d ↔ a = c ∧ b = d := by
  unfold pt
  constructor
  · intro h
    have h2 := congrArg ofLex h
    simpa using h2
  · rintro ⟨rfl, rfl⟩; rfl

theorem deriveLoop_singleton : ∀ (f i j : ℕ) (s : Sentence) (k2 : List Sentence),
    deriveLoop f [s] i j = some k2 → k2 = [s] := by
  intro f
  induction f with
  | zero => intro i j s k2 h; simp [deriveLoop] at h
  | succ f ih =>
    intro i j s k2 h
    unfold deriveLoop at h
    by_cases hi : i < [s].length
    · rw [dif_pos hi] at h
      by_cases hj : j < [s].length
      · rw [dif_pos hj] at h
        have hi0 : i = 0 := by simp at hi; omega
        have hj0 : j = 0 := by simp at hj; omega
        subst hi0; subst hj0
        rw [if_pos rfl] at h
        exact ih 0 1 s k2 h
      · rw [dif_neg hj] at h
        exact ih (i + 1) 0 s k2 h
    · rw [dif_neg hi] at h
      exact (Option.some.inj h).symm

theorem extractLoop_nil : ∀ (f : ℕ) (cs : SentenceStatics) (m sf helper : Finset Cell)
    (idx : ℕ) (out : SentenceStatics × Finset Cell × Finset Cell × List Sentence),
    extractLoop f cs m sf [] helper idx = some out → out = (cs, m, sf, []) := by
  intro f cs m sf helper idx out h
  cases f with
  | zero => simp [extractLoop] at h
  | succ f =>
    unfold extractLoop at h
    rw [dif_neg (by simp)] at h
    exact (Option.some.inj h).symm

theorem extractLoop_stalled : ∀ (f : ℕ) (cs : SentenceStatics) (m sf helper : Finset Cell)
    (k : List Sentence) (idx : ℕ)
    (out : SentenceStatics × Finset Cell × Finset Cell × List Sentence),
    k.length ≤ idx →
    extractLoop f cs m sf k helper idx = some out → out = (cs, m, sf, k) := by
  intro f cs m sf helper k idx out hlen h
  cases f with
  | zero => simp [extractLoop] at h
  | succ f =>
    unfold extractLoop at h
    rw [dif_neg (by omega)] at h
    exact (Option.some.inj h).symm

theorem extractLoop_singleton (f : ℕ) (cs : SentenceStatics) (m sf : Finset Cell)
    (s : Sentence) (helper : Finset Cell)
    (out : SentenceStatics × Finset Cell × Finset Cell × List Sentence)
    (h : extractLoop f cs m sf [s] helper 0 = some out) :
    out.2.2.2 = [] ∨
      (out.2.2.2 = [s] ∧ (s.cells.card : ℤ) ≠ s.count ∧ s.count ≠ 0) := by
  cases f with
  | zero => simp [extractLoop] at h
  | succ f =>
    unfold extractLoop at h
    rw [dif_pos (by simp)] at h
    simp only [List.get] at h
    by_cases h1 : ((s.cells.card : ℤ) = s.count)
    · rw [if_pos h1] at h
      simp only [List.erase_cons_head, batchMarkMine, List.map_nil] at h
      have := extractLoop_nil f _ _ _ _ _ _ h
      left; rw [this]
    · rw [if_neg h1] at h
      by_cases h2 : s.count = 0
      · rw [if_pos h2] at h
        simp only [List.erase_cons_head, batchMarkSafe, List.map_nil] at h
        have := extractLoop_nil f _ _ _ _ _ _ h
        left; rw [this]
      · rw [if_neg h2] at h
        have := extractLoop_stalled f _ _ _ _ _ _ _ (by simp) h
        right; rw [this]
        exact ⟨rfl, h1, h2⟩

theorem mem_neighbour_cells_intro (moves : Finset Cell) (h w x y di dj : ℤ)
    (hoff : (di, dj) ∈ nbrOffsets) (hmv : pt (x + di) (y + dj) ∉ moves)
    (hb1 : 0 ≤ x + di) (hb2 : x + di < h) (hb3 : 0 ≤ y + dj) (hb4 : y + dj < w) :
    pt (x + di) (y + dj) ∈ neighbour_cells moves h w (pt x y) := by
  unfold neighbour_cells
  rw [List.mem_toFinset, List.mem_filter]
  constructor
  · rw [List.mem_map]
    exact ⟨(di, dj), hoff, by simp [pt]⟩
  · simp only [pt, decide_eq_true_eq, ofLex_toLex]
    exact ⟨hmv, hb1, hb2, hb3, hb4⟩

theorem neighbour_cells_nonempty (h w x y : ℤ) (hx1 : 0 ≤ x) (hx2 : x < h)
    (hy1 : 0 ≤ y) (hy2 : y < w) (hgrid : 2 ≤ h ∨ 2 ≤ w) :
    (neighbour_cells {pt x y} h w (pt x y)).Nonempty := by
  rcases hgrid with hh | hw
  · by_cases hx3 : x + 1 < h
    · refine ⟨pt (x + 1) (y + 0), mem_neighbour_cells_intro _ h w x y 1 0
        (by simp [nbrOffsets]) ?_ (by omega) hx3 (by omega) (by omega)⟩
      simp only [Finset.mem_singleton, pt_eq_iff]
      omega
    · refine ⟨pt (x + (-1)) (y + 0), mem_neighbour_cells_intro _ h w x y (-1) 0
        (by simp [nbrOffsets]) ?_ (by omega) (by omega) (by omega) (by omega)⟩
      simp only [Finset.mem_singleton, pt_eq_iff]
      omega
  · by_cases hy3 : y + 1 < w
    · refine ⟨pt (x + 0) (y + 1), mem_neighbour_cells_intro _ h w x y 0 1
        (by simp [nbrOffsets]) ?_ (by omega) (by omega) (by omega) hy3⟩
      simp only [Finset.mem_singleton, pt_eq_iff]
      omega
    · refine ⟨pt (x + 0) (y + (-1)), mem_neighbour_cells_intro _ h w x y 0 (-1)
        (by simp [nbrOffsets]) ?_ (by omega) (by omega) (by omega) (by omega)⟩
      simp only [Finset.mem_singleton, pt_eq_iff]
      omega

/-- C3 (amended): after the FIRST `observe` call on a fresh engine for
an in-grid cell of a grid with at least two cells, the knowledge base
contains no resolved sentence (`count = 0` or `count = |cells|`) and no
vacuous sentence (`cells = ∅`).  After later calls this fails — the
extraction pass runs only once and skips the element that slides into a
removed slot (see `c3_counterexample`). -/
theorem c3_amended (fuel : ℕ) (h w x y n : ℤ) (cs2 : SentenceStatics) (ai2 : Engine)
    (hx1 : 0 ≤ x) (hx2 : x < h) (hy1 : 0 ≤ y) (hy2 : y < w) (hgrid : 2 ≤ h ∨ 2 ≤ w)
    (hrun : add_knowledge fuel initialStatics (initialEngine h w) (pt x y) n =
      some (cs2, ai2)) :
    ∀ s ∈ ai2.knowledge,
      s.cells.Nonempty ∧ s.count ≠ 0 ∧ (s.cells.card : ℤ) ≠ s.count := by
  unfold add_knowledge at hrun
  simp only [initialEngine, engine_mark_safe, markSafeList, List.nil_append] at hrun
  split at hrun
  · simp at hrun
  · rename_i k1 heq1
    have hk1 : k1 = [observeSentence (insert (pt x y) ∅) h w (pt x y) n] :=
      deriveLoop_singleton fuel 0 0 _ k1 heq1
    subst hk1
    split at hrun
    · simp at hrun
    · rename_i out heq2
      simp only [Option.some.injEq, Prod.mk.injEq] at hrun
      obtain ⟨hcs, hai⟩ := hrun
      subst hai
      rcases extractLoop_singleton fuel _ _ _ _ _ _ heq2 with hnil | ⟨hone, hc1, hc2⟩
      · intro s hs
        dsimp only at hnil
        rw [hnil] at hs
        simp at hs
      · intro s hs
        dsimp only at hone
        rw [hone, List.mem_singleton] at hs
        subst hs
        refine ⟨?_, hc2, hc1⟩
        have := neighbour_cells_nonempty h w x y hx1 hx2 hy1 hy2 hgrid
        simpa [observeSentence, insert_emptyc_eq] using this

theorem trueFor_bounds (M : Finset Cell) (s : Sentence) (h : TrueFor M s) :
    0 ≤ s.count ∧ s.count ≤ (s.cells.card : ℤ) := by
  unfold TrueFor at h
  constructor
  · rw [← h]; exact_mod_cast Nat.zero_le _
  · rw [← h]; exact_mod_cast Finset.card_le_card Finset.inter_subset_left

theorem trueFor_sdiff (M : Finset Cell) (s1 s2 : Sentence) (h1 : TrueFor M s1)
    (h2 : TrueFor M s2) (hsub : s2.cells ⊆ s1.cells) :
    TrueFor M { cells := s1.cells \ s2.cells, count := s1.count - s2.count } := by
  unfold TrueFor at h1 h2 ⊢
  dsimp only
  have hset : (s1.cells \ s2.cells) ∩ M = (s1.cells ∩ M) \ (s2.cells ∩ M) := by
    ext c
    simp only [Finset.mem_inter, Finset.mem_sdiff]
    constructor
    · rintro ⟨⟨hc1, hc2⟩, hcM⟩; exact ⟨⟨hc1, hcM⟩, fun hcc => hc2 hcc.1⟩
    · rintro ⟨⟨hc1, hcM⟩, hc2⟩; exact ⟨⟨hc1, fun hh => hc2 ⟨hh, hcM⟩⟩, hcM⟩
  have hle : (s2.cells ∩ M).card ≤ (s1.cells ∩ M).card :=
    Finset.card_le_card (Finset.inter_subset_inter hsub (le_refl M))
  rw [hset, Finset.card_sdiff (Finset.inter_subset_inter hsub (le_refl M)),
    Nat.cast_sub hle]
  omega

theorem deriveLoop_trueFor (M : Finset Cell) :
    ∀ (f : ℕ) (k : List Sentence) (i j : ℕ) (k2 : List Sentence),
    (∀ s ∈ k, TrueFor M s) → deriveLoop f k i j = some k2 →
    ∀ s ∈ k2, TrueFor M s := by
  intro f
  induction f with
  | zero => intro k i j k2 hk h; simp [deriveLoop] at h
  | succ f ih =>
    intro k i j k2 hk h
    unfold deriveLoop at h
    by_cases hi : i < k.length
    · rw [dif_pos hi] at h
      by_cases hj : j < k.length
      · rw [dif_pos hj] at h
        dsimp only at h
        by_cases he : k.get ⟨i, hi⟩ = k.get ⟨j, hj⟩
        · rw [if_pos he] at h; exact ih k i (j + 1) k2 hk h
        · rw [if_neg he] at h
          by_cases hss : (k.get ⟨j, hj⟩).cells ⊂ (k.get ⟨i, hi⟩).cells
          · rw [if_pos hss] at h
            by_cases hmem : Sentence.mk ((k.get ⟨i, hi⟩).cells \ (k.get ⟨j, hj⟩).cells)
                ((k.get ⟨i, hi⟩).count - (k.get ⟨j, hj⟩).count) ∈ k
            · rw [if_pos hmem] at h; exact ih k i (j + 1) k2 hk h
            · rw [if_neg hmem] at h
              refine ih _ i (j + 1) k2 ?_ h
              intro s hs
              rcases List.mem_append.mp hs with hs | hs
              · exact hk s hs
              · rw [List.mem_singleton] at hs
                subst hs
                exact trueFor_sdiff M _ _ (hk _ (List.get_mem k i hi))
                  (hk _ (List.get_mem k j hj)) hss.subset
          · rw [if_neg hss] at h; exact ih k i (j + 1) k2 hk h
      · rw [dif_neg hj] at h; exact ih k (i + 1) 0 k2 hk h
    · rw [dif_neg hi] at h
      have hkk := Option.some.inj h
      subst hkk
      exact hk

theorem sentence_mark_safe_trueFor (M : Finset Cell) (cs : SentenceStatics)
    (s : Sentence) (c : Cell) (hcM : c ∉ M) (h : TrueFor M s) :
    TrueFor M (sentence_mark_safe cs s c).2 := by
  unfold sentence_mark_safe
  by_cases hc : c ∈ s.cells
  · rw [if_pos hc]
    unfold TrueFor at h ⊢
    dsimp only
    have hset : s.cells.erase c ∩ M = s.cells ∩ M := by
      ext d
      simp only [Finset.mem_inter, Finset.mem_erase]
      constructor
      · rintro ⟨⟨hd0, hd1⟩, hd2⟩; exact ⟨hd1, hd2⟩
      · rintro ⟨hd1, hd2⟩
        exact ⟨⟨fun hh => hcM (hh ▸ hd2), hd1⟩, hd2⟩
    rw [hset]; exact h
  · rw [if_neg hc]; exact h

theorem markSafeList_trueFor (M : Finset Cell) (c : Cell) (hcM : c ∉ M) :
    ∀ (k : List Sentence) (cs : SentenceStatics),
    (∀ s ∈ k, TrueFor M s) → ∀ s ∈ (markSafeList cs c k).2, TrueFor M s := by
  intro k
  induction k with
  | nil => intro cs hk s hs; simp [markSafeList] at hs
  | cons a rest ih =>
    intro cs hk s hs
    unfold markSafeList at hs
    dsimp only at hs
    rcases List.mem_cons.mp hs with hs | hs
    · subst hs; exact sentence_mark_safe_trueFor M cs a c hcM (hk a (by simp))
    · exact ih (sentence_mark_safe cs a c).1 (fun t ht => hk t (by simp [ht])) s hs

theorem batchMarkMine_trueFor (M : Finset Cell) (k : List Sentence)
    (helper : Finset Cell) (hk : ∀ t ∈ k, TrueFor M t)
    (hsub : ∀ t ∈ k, t.cells ∩ helper ⊆ M) :
    ∀ t ∈ batchMarkMine k helper, TrueFor M t := by
  intro t ht
  rw [batchMarkMine, List.mem_map] at ht
  obtain ⟨u, hu, rfl⟩ := ht
  unfold TrueFor
  dsimp only
  have hsub2 : u.cells ∩ helper ⊆ u.cells ∩ M := by
    intro c hc
    exact Finset.mem_inter.mpr ⟨(Finset.mem_inter.mp hc).1, hsub u hu hc⟩
  have hset : (u.cells \ helper) ∩ M = (u.cells ∩ M) \ (u.cells ∩ helper) := by
    ext c
    simp only [Finset.mem_inter, Finset.mem_sdiff]
    constructor
    · rintro ⟨⟨hc1, hc2⟩, hc3⟩; exact ⟨⟨hc1, hc3⟩, fun hh => hc2 hh.2⟩
    · rintro ⟨⟨hc1, hc3⟩, hc2⟩; exact ⟨⟨hc1, fun hh => hc2 ⟨hc1, hh⟩⟩, hc3⟩
  rw [hset, Finset.card_sdiff hsub2, Nat.cast_sub (Finset.card_le_card hsub2)]
  have htr := hk u hu
  unfold TrueFor at htr
  omega

theorem batchMarkSafe_trueFor (M : Finset Cell) (k : List Sentence)
    (helper : Finset Cell) (hk : ∀ t ∈ k, TrueFor M t)
    (hdis : ∀ t ∈ k, ∀ c ∈ t.cells ∩ helper, c ∉ M) :
    ∀ t ∈ batchMarkSafe k helper, TrueFor M t := by
  intro t ht
  rw [batchMarkSafe, List.mem_map] at ht
  obtain ⟨u, hu, rfl⟩ := ht
  unfold TrueFor
  dsimp only
  have hset : (u.cells \ helper) ∩ M = u.cells ∩ M := by
    ext c
    simp only [Finset.mem_inter, Finset.mem_sdiff]
    constructor
    · rintro ⟨⟨hc1, hc2⟩, hc3⟩; exact ⟨hc1, hc3⟩
    · rintro ⟨hc1, hc3⟩
      exact ⟨⟨hc1, fun hh => hdis u hu c (Finset.mem_inter.mpr ⟨hc1, hh⟩) hc3⟩, hc3⟩
  rw [hset]
  exact hk u hu

theorem batchMarkMine_disjoint (k : List Sentence) (helper : Finset Cell) :
    ∀ t ∈ batchMarkMine k helper, ∀ c ∈ t.cells, c ∉ helper := by
  intro t ht c hc
  rw [batchMarkMine, List.mem_map] at ht
  obtain ⟨u, hu, rfl⟩ := ht
  exact (Finset.mem_sdiff.mp hc).2

theorem batchMarkSafe_disjoint (k : List Sentence) (helper : Finset Cell) :
    ∀ t ∈ batchMarkSafe k helper, ∀ c ∈ t.cells, c ∉ helper := by
  intro t ht c hc
  rw [batchMarkSafe, List.mem_map] at ht
  obtain ⟨u, hu, rfl⟩ := ht
  exact (Finset.mem_sdiff.mp hc).2

theorem extractLoop_trueFor (M : Finset Cell) :
    ∀ (f : ℕ) (cs : SentenceStatics) (m sf : Finset Cell) (k : List Sentence)
      (helper : Finset Cell) (idx : ℕ)
      (out : SentenceStatics × Finset Cell × Finset Cell × List Sentence),
    (∀ t ∈ k, TrueFor M t) → (∀ t ∈ k, ∀ c ∈ t.cells, c ∉ helper) →
    extractLoop f cs m sf k helper idx = some out →
    ∀ t ∈ out.2.2.2, TrueFor M t := by
  intro f
  induction f with
  | zero => intro cs m sf k helper idx out hk hd h; simp [extractLoop] at h
  | succ f ih =>
    intro cs m sf k helper idx out hk hd h
    unfold extractLoop at h
    by_cases hidx : idx < k.length
    · rw [dif_pos hidx] at h
      dsimp only at h
      by_cases h1 : ((k.get ⟨idx, hidx⟩).cells.card : ℤ) = (k.get ⟨idx, hidx⟩).count
      · rw [if_pos h1] at h
        have hsubM : (k.get ⟨idx, hidx⟩).cells ⊆ M := by
          have htrue := hk _ (List.get_mem k idx hidx)
          unfold TrueFor at htrue
          have hcard : (k.get ⟨idx, hidx⟩).cells.card ≤
              ((k.get ⟨idx, hidx⟩).cells ∩ M).card := by omega
          have heqset : (k.get ⟨idx, hidx⟩).cells ∩ M = (k.get ⟨idx, hidx⟩).cells :=
            Finset.eq_of_subset_of_card_le Finset.inter_subset_left hcard
          intro c hc
          have : c ∈ (k.get ⟨idx, hidx⟩).cells ∩ M := heqset.symm ▸ hc
          exact (Finset.mem_inter.mp this).2
        refine ih _ _ _ _ _ _ _ ?_ ?_ h
        · apply batchMarkMine_trueFor
          · intro t ht; exact hk t (List.mem_of_mem_erase ht)
          · intro t ht c hc
            rcases Finset.mem_inter.mp hc with ⟨hc1, hc2⟩
            rcases Finset.mem_union.mp hc2 with hc2 | hc2
            · exact absurd hc2 (hd t (List.mem_of_mem_erase ht) c hc1)
            · exact hsubM hc2
        · exact batchMarkMine_disjoint _ _
      · rw [if_neg h1] at h
        by_cases h2 : (k.get ⟨idx, hidx⟩).count = 0
        · rw [if_pos h2] at h
          have hempty : (k.get ⟨idx, hidx⟩).cells ∩ M = ∅ := by
            have htrue := hk _ (List.get_mem k idx hidx)
            unfold TrueFor at htrue
            apply Finset.card_eq_zero.mp
            omega
          refine ih _ _ _ _ _ _ _ ?_ ?_ h
          · apply batchMarkSafe_trueFor
            · intro t ht; exact hk t (List.mem_of_mem_erase ht)
            · intro t ht c hc hcM
              rcases Finset.mem_inter.mp hc with ⟨hc1, hc2⟩
              rcases Finset.mem_union.mp hc2 with hc2 | hc2
              · exact hd t (List.mem_of_mem_erase ht) c hc1 hc2
              · have : c ∈ (k.get ⟨idx, hidx⟩).cells ∩ M :=
                  Finset.mem_inter.mpr ⟨hc2, hcM⟩
                rw [hempty] at this
                simp at this
          · exact batchMarkSafe_disjoint _ _
        · rw [if_neg h2] at h
          exact ih _ _ _ _ _ _ _ hk hd h
    · rw [dif_neg hidx] at h
      have hout := Option.some.inj h
      subst hout
      exact hk

theorem observe_trueFor (M : Finset Cell) (moves : Finset Cell) (h w : ℤ)
    (cell : Cell) (hmoves : ∀ c ∈ moves, c ∉ M) (hcell : cell ∈ moves) :
    TrueFor M (observeSentence moves h w cell (nearby_mines M h w cell)) := by
  unfold TrueFor observeSentence nearby_mines
  dsimp only
  have hset : neighbour_cells moves h w cell ∩ M =
      ((nbrOffsets.map fun p =>
        pt ((ofLex cell).1 + p.1) ((ofLex cell).2 + p.2)).filter
        fun c => c ≠ cell ∧ 0 ≤ (ofLex c).1 ∧ (ofLex c).1 < h ∧
          0 ≤ (ofLex c).2 ∧ (ofLex c).2 < w ∧ c ∈ M).toFinset := by
    ext c
    simp only [neighbour_cells, Finset.mem_inter, List.mem_toFinset, List.mem_filter,
      decide_eq_true_eq]
    constructor
    · rintro ⟨⟨hmap, hmv, hb1, hb2, hb3, hb4⟩, hM⟩
      refine ⟨hmap, ?_, hb1, hb2, hb3, hb4, hM⟩
      rintro rfl
      exact hmv hcell
    · rintro ⟨hmap, hne, hb1, hb2, hb3, hb4, hM⟩
      exact ⟨⟨hmap, fun hmv => hmoves c hmv hM, hb1, hb2, hb3, hb4⟩, hM⟩
  rw [hset]

theorem add_knowledge_sound (M : Finset Cell) (fuel : ℕ) (cs : SentenceStatics)
    (ai : Engine) (cell : Cell) (cs2 : SentenceStatics) (ai2 : Engine)
    (hcM : cell ∉ M) (hmoves : ∀ c ∈ ai.moves_made, c ∉ M)
    (hk : ∀ s ∈ ai.knowledge, TrueFor M s)
    (hrun : add_knowledge fuel cs ai cell
      (nearby_mines M ai.height ai.width cell) = some (cs2, ai2)) :
    (∀ c ∈ ai2.moves_made, c ∉ M) ∧ (∀ s ∈ ai2.knowledge, TrueFor M s) ∧
      ai2.height = ai.height ∧ ai2.width = ai.width := by
  unfold add_knowledge at hrun
  simp only [engine_mark_safe] at hrun
  split at hrun
  · simp at hrun
  · rename_i k1 heq1
    split at hrun
    · simp at hrun
    · rename_i cs9 m9 s9 k9 heq2
      simp only [Option.some.injEq, Prod.mk.injEq] at hrun
      obtain ⟨hcs, hai⟩ := hrun
      subst hai
      refine ⟨?_, ?_, rfl, rfl⟩
      · intro c hc
        dsimp only at hc
        rcases Finset.mem_insert.mp hc with rfl | hc
        · exact hcM
        · exact hmoves c hc
      · intro s hs
        dsimp only at hs
        have hk0 : ∀ t ∈ (markSafeList cs cell ai.knowledge).2 ++
            [observeSentence (insert cell ai.moves_made) ai.height ai.width cell
              (nearby_mines M ai.height ai.width cell)], TrueFor M t := by
          intro t ht
          rcases List.mem_append.mp ht with ht | ht
          · exact markSafeList_trueFor M cell hcM ai.knowledge cs hk t ht
          · rw [List.mem_singleton] at ht
            subst ht
            refine observe_trueFor M _ ai.height ai.width cell ?_
              (Finset.mem_insert_self cell ai.moves_made)
            intro c hcmem
            rcases Finset.mem_insert.mp hcmem with rfl | hcmem
            · exact hcM
            · exact hmoves c hcmem
        have hk1 : ∀ t ∈ k1, TrueFor M t := deriveLoop_trueFor M fuel _ 0 0 k1 hk0 heq1
        exact extractLoop_trueFor M fuel _ _ _ k1 ∅ 0 _ hk1
          (by intro t ht c hc hmem; simp at hmem) heq2 s hs

theorem runObs_sound (M : Finset Cell) :
    ∀ (obs : List (Cell × ℤ)) (fuel : ℕ) (p : SentenceStatics × Engine)
      (out : SentenceStatics × Engine),
    (∀ q ∈ obs, q.1 ∉ M ∧ q.2 = nearby_mines M p.2.height p.2.width q.1) →
    (∀ c ∈ p.2.moves_made, c ∉ M) → (∀ s ∈ p.2.knowledge, TrueFor M s) →
    runObs fuel p obs = some out → ∀ s ∈ out.2.knowledge, TrueFor M s := by
  intro obs
  induction obs with
  | nil =>
    intro fuel p out hobs hm hk h
    unfold runObs at h
    have hpo := Option.some.inj h
    subst hpo
    exact hk
  | cons q rest ih =>
    intro fuel p out hobs hm hk h
    obtain ⟨c, n⟩ := q
    unfold runObs at h
    split at h
    · simp at h
    · rename_i p2 heq
      have hq := hobs (c, n) (by simp)
      dsimp only at hq
      rw [hq.2] at heq
      rw [show p2 = (p2.1, p2.2) from rfl] at heq
      have hsound := add_knowledge_sound M fuel p.1 p.2 c p2.1 p2.2 hq.1 hm hk heq
      refine ih fuel p2 out ?_ hsound.1 hsound.2.1 h
      intro r hr
      have hro := hobs r (by simp [hr])
      exact ⟨hro.1, by rw [hsound.2.2.1, hsound.2.2.2]; exact hro.2⟩

/-- C2 (amended): when every observation reports, for a non-mine cell,
the true nearby-mine count of one fixed mine set `M` (a well-formed
play), every sentence in the knowledge base after every `observe` call
satisfies `0 ≤ count ≤ |cells|`.  This follows from an invariant proved
by induction: every sentence in the knowledge base is true of `M`.
Without that hypothesis the bound fails (see `c2_counterexample`). -/
theorem c2_amended (fuel : ℕ) (h w : ℤ) (M : Finset Cell) (obs : List (Cell × ℤ))
    (out : SentenceStatics × Engine)
    (hobs : ∀ q ∈ obs, q.1 ∉ M ∧ q.2 = nearby_mines M h w q.1)
    (hrun : runObs fuel (initialStatics, initialEngine h w) obs = some out) :
    ∀ s ∈ out.2.knowledge, 0 ≤ s.count ∧ s.count ≤ (s.cells.card : ℤ) := by
  intro s hs
  refine trueFor_bounds M s
    (runObs_sound M obs fuel (initialStatics, initialEngine h w) out ?_ ?_ ?_ hrun s hs)
  · simpa [initialEngine] using hobs
  · simp [initialEngine]
  · simp [initialEngine]

set_option maxRecDepth 100000

/-- C1: refuted on the code — the engine marks `(1,1)` both as a mine and
as safe after six truthful observations on a 3×3 board whose only mine is
`(1,1)`.  The `helper` set of the extraction loop is created once before
the loop and keeps the cells of an earlier all-mines sentence, so a later
count-zero sentence batch marks those mine cells safe. -/
theorem c1_code_bug : c1Check = true := by decide

/-- C2: the claim as stated (for every observation sequence) is refuted —
`observe((0,0), 5)` on a fresh 3×3 engine stores the sentence
`{(0,1),(1,0),(1,1)} = 5` with `count > |cells|` and no check fires. -/
theorem c2_counterexample : c2CexCheck = true := by decide

/-- C3: refuted on the code — after three truthful observations on a 3×3
board the knowledge base still holds a resolved sentence when
`add_knowledge` returns (the single extraction pass skipped it). -/
theorem c3_counterexample : c3CexCheck = true := by decide

/-- C4: refuted on the code — observing `(0,0)` twice, the second call
receives a cell already in `moves_made`, is not rejected, and leaves the
engine in a different state (a duplicate sentence was appended). -/
theorem c4_counterexample : c4CexCheck = true := by decide

/-- C5: refuted on the code — after observing the same cell twice the
knowledge base holds two equal sentences (`Nodup` fails): the
observation append on line 220 has no duplicate check. -/
theorem c5_counterexample : c5CexCheck = true := by decide

/-- C6: on a fresh 3×3 engine, a single call `observe((0,0), 0)` marks
all three grid-valid neighbours `(0,1)`, `(1,0)`, `(1,1)` of `(0,0)`
safe. -/
theorem c6_scenario : c6Check = true := by decide

/-- C9: refuted on the code — `Sentence.mines` is a class attribute, so
after engine A (sharing the Python process) deduces the mine `(1,1)`,
the `known_mines()` view of engine B's stored sentence changes from `∅`
to `{(1,1)}` although no operation was performed on B. -/
theorem c9_code_bug : c9Check = true := by decide

/-- Witness for C2 (amended): one truthful observation on a 3×3 board
with mine set `{(1,1)}`; the resulting sentence satisfies the bound. -/
theorem c2_witness :
    0 ≤ (Sentence.mk {pt 0 1, pt 1 0, pt 1 1} 1).count ∧
    (Sentence.mk {pt 0 1, pt 1 0, pt 1 1} 1).count ≤
      ((Sentence.mk {pt 0 1, pt 1 0, pt 1 1} 1).cells.card : ℤ) :=
  c2_amended 20 3 3 {pt 1 1} [(pt 0 0, 1)]
    (initialStatics, engineAfterOneObserve) (by decide) (by decide)
    (Sentence.mk {pt 0 1, pt 1 0, pt 1 1} 1) (by decide)

/-- Witness for C3 (amended): the first observation `((0,0), 1)` on a
fresh 3×3 engine leaves exactly one unresolved, non-vacuous sentence. -/
theorem c3_witness :
    (Sentence.mk {pt 0 1, pt 1 0, pt 1 1} 1).cells.Nonempty ∧
    (Sentence.mk {pt 0 1, pt 1 0, pt 1 1} 1).count ≠ 0 ∧
    ((Sentence.mk {pt 0 1, pt 1 0, pt 1 1} 1).cells.card : ℤ) ≠
      (Sentence.mk {pt 0 1, pt 1 0, pt 1 1} 1).count :=
  c3_amended 20 3 3 0 0 1 initialStatics engineAfterOneObserve
    (by decide) (by decide) (by decide) (by decide) (by decide) (by decide)
    (Sentence.mk {pt 0 1, pt 1 0, pt 1 1} 1) (by decide)

/-- Witness for C4 (amended): observing `(0,0)` again after
`engineAfterOneObserve` keeps `moves_made` unchanged. -/
theorem c4_witness :
    engineAfterTwoObserve.moves_made = engineAfterOneObserve.moves_made :=
  c4_amended 20 initialStatics engineAfterOneObserve (pt 0 0) 1
    initialStatics engineAfterTwoObserve (by decide) (by decide)

/-- Witness for C5 (amended): observing `(0,0)` again after
`engineAfterOneObserve` appends a sentence equal to the stored one, so
the pre-derivation knowledge base counts it twice. -/
theorem c5_witness : 2 ≤ List.count
    (observeSentence (insert (pt 0 0) engineAfterOneObserve.moves_made)
      engineAfterOneObserve.height engineAfterOneObserve.width (pt 0 0) 1)
    ((engine_mark_safe initialStatics
        { engineAfterOneObserve with
          moves_made := insert (pt 0 0) engineAfterOneObserve.moves_made }
        (pt 0 0)).2.knowledge ++
      [observeSentence (insert (pt 0 0) engineAfterOneObserve.moves_made)
        engineAfterOneObserve.height engineAfterOneObserve.width (pt 0 0) 1]) :=
  c5_amended initialStatics engineAfterOneObserve (pt 0 0) 1 (by decide)

/-- Witness for C7: on a fresh 1×1 engine with the constant stream at
`(0,0)`, the loop returns that eligible cell. -/
theorem c7_witness : ∃ fuel c,
    make_random_move (initialEngine 1 1) (fun _ => pt 0 0) fuel 0 = some c ∧
    inGrid (initialEngine 1 1).height (initialEngine 1 1).width c ∧
    c ∉ (initialEngine 1 1).mines ∧ c ∉ (initialEngine 1 1).moves_made :=
  c7_random_move (initialEngine 1 1) (fun _ => pt 0 0)
    (fun _ => (by decide : inGrid 1 1 (pt 0 0)))
    (fun c hc => ⟨0, by
      have hc2 : 0 ≤ (ofLex c).1 ∧ (ofLex c).1 < 1 ∧
          0 ≤ (ofLex c).2 ∧ (ofLex c).2 < 1 := hc
      have hx : (ofLex c).1 = 0 := by omega
      have hy : (ofLex c).2 = 0 := by omega
      show pt 0 0 = c
      rw [← toLex_ofLex c]
      unfold pt
      congr 1
      rw [Prod.ext_iff]
      exact ⟨hx.symm, hy.symm⟩⟩)
    ⟨pt 0 0, by decide, by decide, by decide⟩

/-- Witness for C8: concrete instance with the cell not in the sentence,
discharging the membership hypothesis of the no-op conjunct. -/
theorem c8_witness :
    sentence_mark_mine
        (sentence_mark_mine initialStatics (Sentence.mk {pt 0 0} 1) (pt 1 1)).1
        (sentence_mark_mine initialStatics (Sentence.mk {pt 0 0} 1) (pt 1 1)).2
        (pt 1 1) =
      sentence_mark_mine initialStatics (Sentence.mk {pt 0 0} 1) (pt 1 1) ∧
    sentence_mark_safe
        (sentence_mark_safe initialStatics (Sentence.mk {pt 0 0} 1) (pt 1 1)).1
        (sentence_mark_safe initialStatics (Sentence.mk {pt 0 0} 1) (pt 1 1)).2
        (pt 1 1) =
      sentence_mark_safe initialStatics (Sentence.mk {pt 0 0} 1) (pt 1 1) ∧
    (sentence_mark_mine initialStatics (Sentence.mk {pt 0 0} 1) (pt 1 1) =
        (initialStatics, Sentence.mk {pt 0 0} 1) ∧
      sentence_mark_safe initialStatics (Sentence.mk {pt 0 0} 1) (pt 1 1) =
        (initialStatics, Sentence.mk {pt 0 0} 1)) := by
  have h := c8_mark_idempotent initialStatics (Sentence.mk {pt 0 0} 1) (pt 1 1)
  exact ⟨h.1, h.2.1, h.2.2 (by decide)⟩
